import Mathlib

/-!
A shallow embedding of the court-slot reservation engine of
`andreakollova/palmapickleball` (`app.py`).  Pure data and explicit state
passing replace the Flask/HTTP layer; every definition below mirrors a
concrete function or route of the source (line numbers refer to `app.py`).

Time is modelled at second granularity:
* stored hold timestamps (`datetime.utcnow()`) are `Int` seconds on the UTC
  timeline;
* the facility-local wall clock used by the same-day cutoff rule
  (`datetime.now()`) is a `Nat` number of seconds since local midnight,
  with the current local date passed alongside as a string (the source
  formats `datetime.now()` with `"%Y-%m-%d"` and compares date strings).
-/

/-- `HOLD_MINUTES` (app.py line 48): holds are kept for 10 minutes. -/
def HOLD_MINUTES : Nat := 10

/-- `HOLD_DELTA` (app.py line 49) in seconds: `timedelta(minutes=10)`, whose
`.seconds` attribute is `600`. -/
def HOLD_SECONDS : Int := 60 * (HOLD_MINUTES : Int)

/-- ASCII digit character of `d < 10`, as produced by Python string
formatting. -/
def digit_char (d : Nat) : Char := Char.ofNat (48 + d)

/-- Python `f"{h:02d}"` for `h ≤ 99`: two-digit zero-padded rendering. -/
def two_digit (h : Nat) : String :=
  String.mk [digit_char (h / 10), digit_char (h % 10)]

/-- `build_slots` (app.py lines 31–36): for every hour `h` in `range(8, 21)`
emit `f"{h:02d}:00"` and `f"{h:02d}:30"`. -/
def build_slots : List String :=
  (List.range' 8 13).flatMap (fun h => [two_digit h ++ ":00", two_digit h ++ ":30"])

/-- `SLOTS_30` (app.py line 39): the fixed slot grid, built once. -/
def SLOTS_30 : List String := build_slots

/-- `COURTS` (app.py line 40): the fixed court enumeration, key ↦ label. -/
def COURTS : List (String × String) := [("1", "Kurt 1"), ("2", "Kurt 2")]

/-- The court keys; Python `court in COURTS` is key membership in the dict. -/
def court_ids : List String := COURTS.map Prod.fst

/-- Python `str.split(sep)` for a one-character separator, acting on the
character list of the string: `"a-b".split("-") == ["a", "b"]` and
`"".split("-") == [""]`. -/
def split_on_char (sep : Char) : List Char → List (List Char)
  | [] => [[]]
  | c :: rest =>
    match split_on_char sep rest with
    | [] => [[c]]
    | g :: gs => if c == sep then [] :: g :: gs else (c :: g) :: gs

/-- Numeric value of a digit string (most significant first), as Python
`int` on the validated digit groups of `strptime`. -/
def digits_val (cs : List Char) : Nat :=
  cs.foldl (fun n c => 10 * n + (c.toNat - 48)) 0

/-- Gregorian leap-year rule, as implemented by Python `datetime`. -/
def is_leap (y : Nat) : Bool :=
  y % 4 == 0 && (y % 100 != 0 || y % 400 == 0)

/-- Length of a month, as validated by the Python `datetime` constructor. -/
def days_in_month (y m : Nat) : Nat :=
  if m == 2 then (if is_leap y then 29 else 28)
  else if m == 4 || m == 6 || m == 9 || m == 11 then 30
  else 31

/-- `valid_date` (app.py lines 52–57): `datetime.strptime(s, "%Y-%m-%d")`
succeeds exactly on `YYYY-MM-DD` strings — an exactly-4-digit year ≥ 1
(year 0 is below `datetime.MINYEAR`), a 1–2 digit month in `1..12` and a
1–2 digit day in `1..days_in_month`. -/
def valid_date (s : String) : Bool :=
  match split_on_char '-' s.toList with
  | [ys, ms, ds] =>
    ys.length == 4 && ys.all Char.isDigit &&
    decide (1 ≤ ms.length) && decide (ms.length ≤ 2) && ms.all Char.isDigit &&
    decide (1 ≤ ds.length) && decide (ds.length ≤ 2) && ds.all Char.isDigit &&
    (let y := digits_val ys
     let m := digits_val ms
     let d := digits_val ds
     decide (1 ≤ y) && decide (1 ≤ m) && decide (m ≤ 12) &&
     decide (1 ≤ d) && decide (d ≤ days_in_month y m))
  | _ => false

/-- `hh, mm = map(int, s.split(":"))` (app.py lines 132 and 209) followed by
the minute-of-day value `60*hh + mm` of the slot's start; total on strings,
exact on the well-formed `"HH:MM"` members of `SLOTS_30`. -/
def slot_minutes (s : String) : Nat :=
  match split_on_char ':' s.toList with
  | [hs, ms] => 60 * digits_val hs + digits_val ms
  | _ => 0

/-- One `(date, court)` ledger of the `bookings` store (app.py line 45):
the Python dict `slot -> {"held_at": datetime}`, embedded as an association
list slot ↦ held-at timestamp in insertion order (dict keys are unique in
every state the program reaches). -/
abbrev Ledger := List (String × Int)

/-- Python `s in slot_map`: key membership. -/
def ledgerHas (l : Ledger) (s : String) : Bool :=
  l.any (fun p => p.1 == s)

/-- Python `slot_map[s]`: value at the first (i.e. unique) matching key. -/
def ledgerLookup : Ledger → String → Option Int
  | [], _ => none
  | p :: rest, s => if p.1 == s then some p.2 else ledgerLookup rest s

/-- Python `slot_map[s] = {"held_at": t}`: overwrite the entry in place when
the key is present, append it otherwise. -/
def ledgerPut : Ledger → String → Int → Ledger
  | [], s, t => [(s, t)]
  | p :: rest, s, t => if p.1 == s then (s, t) :: rest else p :: ledgerPut rest s t

/-- Python `del slot_map[s]`: drop the (unique) entry of key `s`. -/
def ledgerErase : Ledger → String → Ledger
  | [], _ => []
  | p :: rest, s => if p.1 == s then rest else p :: ledgerErase rest s

/-- `slot_map.keys()`. -/
def ledgerKeys (l : Ledger) : List String := l.map Prod.fst

/-- The process-wide `bookings` store (app.py line 45): date ↦ court ↦
ledger.  The `defaultdict` materialises empty ledgers on first access; an
absent entry and an empty ledger are indistinguishable to every operation,
so the store is embedded as a total function into ledgers. -/
abbrev Store := String → String → Ledger

/-- Replace the ledger of one `(date, court)` pair of the store. -/
def storeSet (st : Store) (date court : String) (l : Ledger) : Store :=
  fun d c => if d = date ∧ c = court then l else st d c

/-- The sweep of one ledger (app.py lines 104–108): delete every hold with
`held_at < now - HOLD_DELTA`, keep the rest in order.  Holds are always
created with a timestamp, so the `not meta` / `held_at is None` guards of
the source never fire and are not represented. -/
def sweepLedger (now : Int) (l : Ledger) : Ledger :=
  l.filter (fun p => !decide (p.2 < now - HOLD_SECONDS))

/-- `cleanup_expired(now)` (app.py lines 91–108): sweep every
`(date, court)` ledger of the store. -/
def cleanup_expired (now : Int) (st : Store) : Store :=
  fun d c => sweepLedger now (st d c)

/-- `court_busy_slots_for_date` (app.py lines 111–117): sweep, then report
the held slots of the requested ledger (the source returns them as a set;
membership in the key list below is exactly set membership). -/
def court_busy_slots_for_date (st : Store) (now : Int) (date court : String) :
    List String :=
  ledgerKeys ((cleanup_expired now st) date court)

/-- `slots_blocked_today` (app.py lines 121–136): the slots whose start time
today is `≤ now + bumper` minutes, at second granularity on the local clock
(`now_local` = seconds since local midnight); both call sites use the
default bumper of 30 minutes. -/
def slots_blocked_today (now_local : Nat) (bumper_min : Nat) : List String :=
  SLOTS_30.filter (fun s => decide (60 * slot_minutes s ≤ now_local + 60 * bumper_min))

/-- The same-day cutoff gate of `/api/book` (app.py lines 203–214): when the
request is dated today, reject if any requested slot starts at or before
`now + 30` minutes on the local clock. -/
def too_soon_check (today : String) (now_local : Nat) (date : String)
    (slots : List String) : Bool :=
  date == today && slots.any (fun s => decide (60 * slot_minutes s ≤ now_local + 1800))

/-- The request-rejection taxonomy of the booking routes; each constructor
corresponds to one `jsonify({"ok": False, ...})` return of the source. -/
inductive BookError where
  | InvalidDate
  | UnknownResource
  | EmptySelection
  | InvalidSlot
  | TooSoon
  | NonContiguous
  | Conflict (conflicts : List String)
deriving DecidableEq

/-- The success payload of `/api/book` (app.py lines 241–248). -/
structure BookSuccess where
  reserved : List String
  court : String
  date : String
  expires_at : Int
  hold_seconds : Int
deriving DecidableEq

/-- Python `min` on a nonempty list of naturals (0 on `[]`, which the source
never queries: `min(idxs)` runs only on nonempty `idxs`). -/
def list_min : List Nat → Nat
  | [] => 0
  | x :: xs => xs.foldl Nat.min x

/-- Python `max` on a nonempty list of naturals (0 on `[]`). -/
def list_max : List Nat → Nat
  | [] => 0
  | x :: xs => xs.foldl Nat.max x

/-- `idxs = sorted(SLOTS_30.index(s) for s in slots)` (app.py line 221). -/
def book_idxs (slots : List String) : List Nat :=
  List.insertionSort (· ≤ ·) (slots.map (fun s => List.indexOf s SLOTS_30))

/-- The contiguity test of app.py line 222:
`idxs == list(range(min(idxs), max(idxs) + 1))`. -/
def contiguous_run (slots : List String) : Bool :=
  let idxs := book_idxs slots
  idxs == List.range' (list_min idxs) (list_max idxs + 1 - list_min idxs)

/-- `/api/book` (app.py lines 180–248) as a function of the request, the two
clocks and the store: `today` / `now_local` are the facility-local date
string and seconds-since-midnight (`datetime.now()`), `now_utc` the UTC
timestamp (`datetime.utcnow()`).  Returns the response and the store after
the call. -/
def api_book (today : String) (now_local : Nat) (now_utc : Int)
    (date court : String) (slots : List String) (st : Store) :
    Except BookError BookSuccess × Store :=
  if !valid_date date then (.error .InvalidDate, st)
  else if !court_ids.contains court then (.error .UnknownResource, st)
  else if slots.isEmpty then (.error .EmptySelection, st)
  else if slots.any (fun s => !SLOTS_30.contains s) then (.error .InvalidSlot, st)
  else if too_soon_check today now_local date slots then (.error .TooSoon, st)
  else
    let st1 := cleanup_expired now_utc st
    if !contiguous_run slots then (.error .NonContiguous, st1)
    else
      let slot_map := st1 date court
      let conflicts := slots.filter (fun s => ledgerHas slot_map s)
      if !conflicts.isEmpty then (.error (.Conflict conflicts), st1)
      else
        let new_map := slots.foldl (fun l s => ledgerPut l s now_utc) slot_map
        (.ok ⟨slots, court, date, now_utc + HOLD_SECONDS, HOLD_SECONDS⟩,
         storeSet st1 date court new_map)

/-- `/api/release` (app.py lines 433–463): validate, sweep, then delete each
requested slot's hold if present, accumulating the released slots in request
order. -/
def api_release (date court : String) (slots : List String) (now_utc : Int)
    (st : Store) : Except BookError (List String) × Store :=
  if !valid_date date then (.error .InvalidDate, st)
  else if !court_ids.contains court then (.error .UnknownResource, st)
  else if slots.isEmpty then (.error .EmptySelection, st)
  else if slots.any (fun s => !SLOTS_30.contains s) then (.error .InvalidSlot, st)
  else
    let st1 := cleanup_expired now_utc st
    let fin := slots.foldl
      (fun (p : Ledger × List String) s =>
        if ledgerHas p.1 s then (ledgerErase p.1 s, p.2 ++ [s]) else p)
      (st1 date court, [])
    (.ok fin.2, storeSet st1 date court fin.1)

deriving instance DecidableEq for Except

/-- A store holding slot `"10:00"` of court 1 on 2099-01-02 since UTC
timestamp 36000 (10:00:00 as seconds of the day), empty elsewhere. -/
def holdAtTenSt : Store :=
  fun d c => if d = "2099-01-02" ∧ c = "1" then [("10:00", 36000)] else []

/-- A store with a live hold on `"09:30"` (timestamp 1000) and an expired
hold on `"10:00"` (timestamp 0) of court 1 on 2099-01-02. -/
def conflictSt : Store :=
  fun d c =>
    if d = "2099-01-02" ∧ c = "1" then [("09:30", 1000), ("10:00", 0)] else []

/-- The empty store. -/
def emptySt : Store := fun _ _ => []

/-- Membership in a swept ledger: the hold survives `sweep(now)` exactly when
`now ≤ held_at + TTL`, i.e. when it is strictly younger than the TTL or
exactly TTL old. -/
theorem mem_sweepLedger {now t : Int} {l : Ledger} {s : String} :
    (s, t) ∈ sweepLedger now l ↔ ((s, t) ∈ l ∧ now ≤ t + HOLD_SECONDS) := by
  have hiff : (¬ t < now - HOLD_SECONDS) ↔ now ≤ t + HOLD_SECONDS := by
    constructor <;> (intro h; omega)
  simp [sweepLedger, List.mem_filter, hiff]

/-- A slot is reported busy exactly when some hold of it is at most TTL old. -/
theorem mem_busy {st : Store} {now : Int} {d c s : String} :
    s ∈ court_busy_slots_for_date st now d c ↔
      ∃ t, (s, t) ∈ st d c ∧ now ≤ t + HOLD_SECONDS := by
  constructor
  · intro h
    rcases List.mem_map.mp h with ⟨⟨s', t⟩, hp, he⟩
    cases he
    exact ⟨t, mem_sweepLedger.mp hp⟩
  · rintro ⟨t, hm, hl⟩
    exact List.mem_map.mpr ⟨(s, t), mem_sweepLedger.mpr ⟨hm, hl⟩, rfl⟩

/-- C1 (amended).  Expiry boundary of the reaper: a hold with timestamp `T`
survives `sweep(now)` — and is reported busy by the availability helper —
exactly when `now ≤ T + TTL`; equivalently `sweep(now)` removes exactly the
holds with `now - createdAt > TTL` (the source deletes on the strict test
`held_at < now - HOLD_DELTA`).  Concretely, a slot held at 10:00:00 is busy
at 10:09:59 and still busy at 10:10:00, and free at 10:10:01. -/
theorem claim1_expiry_boundary :
    (∀ (st : Store) (now : Int) (d c s : String) (t : Int),
        (s, t) ∈ (cleanup_expired now st) d c ↔
          ((s, t) ∈ st d c ∧ now ≤ t + HOLD_SECONDS)) ∧
    (∀ (st : Store) (now : Int) (d c s : String),
        s ∈ court_busy_slots_for_date st now d c ↔
          ∃ t, (s, t) ∈ st d c ∧ now ≤ t + HOLD_SECONDS) ∧
    "10:00" ∈ court_busy_slots_for_date holdAtTenSt 36599 "2099-01-02" "1" ∧
    "10:00" ∈ court_busy_slots_for_date holdAtTenSt 36600 "2099-01-02" "1" ∧
    "10:00" ∉ court_busy_slots_for_date holdAtTenSt 36601 "2099-01-02" "1" :=
  ⟨fun _ _ _ _ _ _ => mem_sweepLedger, fun _ _ _ _ _ => mem_busy,
   by decide, by decide, by decide⟩

/-- C1, counterexample to the claim as stated: a hold created at
T = 36000 (10:00:00) has age exactly TTL at now = 36600 (10:10:00), yet
`sweep(now)` keeps it and the slot is still reported busy, contradicting
"removed at any time T' with T' ≥ T+TTL" / "free at 10:10:00". -/
theorem claim1_counterexample :
    (36600 : Int) - 36000 ≥ HOLD_SECONDS ∧
    (cleanup_expired 36600 holdAtTenSt) "2099-01-02" "1" = [("10:00", 36000)] ∧
    "10:00" ∈ court_busy_slots_for_date holdAtTenSt 36600 "2099-01-02" "1" := by
  refine ⟨by decide, by decide, by decide⟩

/-- C7.  Sweeping twice with the same `now` yields the same store as
sweeping once. -/
theorem claim7_sweep_idempotent (now : Int) (st : Store) :
    cleanup_expired now (cleanup_expired now st) = cleanup_expired now st := by
  funext d c
  simp [cleanup_expired, sweepLedger, List.filter_filter]

/-- C8.  The slot grid: exactly the 26 half-hour start times 08:00–20:30,
chronologically ordered with no duplicates (and fixed — `build_slots` does
not depend on the day). -/
theorem claim8_slot_grid :
    SLOTS_30 = ["08:00", "08:30", "09:00", "09:30", "10:00", "10:30",
      "11:00", "11:30", "12:00", "12:30", "13:00", "13:30", "14:00", "14:30",
      "15:00", "15:30", "16:00", "16:30", "17:00", "17:30", "18:00", "18:30",
      "19:00", "19:30", "20:00", "20:30"] ∧
    SLOTS_30.length = 26 ∧ SLOTS_30.Nodup ∧
    SLOTS_30.Pairwise (fun a b => slot_minutes a < slot_minutes b) ∧
    SLOTS_30.head? = some "08:00" ∧ SLOTS_30.getLast? = some "20:30" := by
  refine ⟨by decide, by decide, by decide, by decide, by decide, by decide⟩

/-- Every call of `book` either leaves the store untouched, leaves it
exactly swept, or returns a success payload. -/
theorem api_book_store_cases
    (today date court : String) (now_local : Nat) (now_utc : Int)
    (slots : List String) (st : Store) :
    (api_book today now_local now_utc date court slots st).2 = st ∨
    (api_book today now_local now_utc date court slots st).2 =
      cleanup_expired now_utc st ∨
    ∃ ok, (api_book today now_local now_utc date court slots st).1 =
      .ok ok := by
  unfold api_book
  split
  · exact Or.inl rfl
  split
  · exact Or.inl rfl
  split
  · exact Or.inl rfl
  split
  · exact Or.inl rfl
  split
  · exact Or.inl rfl
  dsimp only
  split
  · exact Or.inr (Or.inl rfl)
  split
  · exact Or.inr (Or.inl rfl)
  · exact Or.inr (Or.inr ⟨_, rfl⟩)

/-- C10.  Rejection atomicity of `book`: whenever the call returns an error,
the store after the call is either untouched (the early validation errors,
raised before the sweep) or exactly the swept prior store (`NonContiguous`
and `Conflict`); in particular no new hold is ever written on rejection. -/
theorem claim10_rejection_atomicity
    (today date court : String) (now_local : Nat) (now_utc : Int)
    (slots : List String) (st : Store) (e : BookError)
    (h : (api_book today now_local now_utc date court slots st).1 = .error e) :
    (api_book today now_local now_utc date court slots st).2 = st ∨
    (api_book today now_local now_utc date court slots st).2 =
      cleanup_expired now_utc st := by
  rcases api_book_store_cases today date court now_local now_utc slots st with
    h1 | h1 | ⟨ok, h1⟩
  · exact Or.inl h1
  · exact Or.inr h1
  · rw [h1] at h
    exact absurd h (by simp)

/-- Witness for C10: a request with a malformed date errors with
`InvalidDate` and leaves the store intact (or swept). -/
theorem claim10_witness :
    (api_book "2099-01-01" 0 1000 "not-a-date" "1" ["08:00"] holdAtTenSt).1 =
      .error .InvalidDate ∧
    ((api_book "2099-01-01" 0 1000 "not-a-date" "1" ["08:00"] holdAtTenSt).2 =
        holdAtTenSt ∨
      (api_book "2099-01-01" 0 1000 "not-a-date" "1" ["08:00"] holdAtTenSt).2 =
        cleanup_expired 1000 holdAtTenSt) :=
  ⟨by decide,
   claim10_rejection_atomicity "2099-01-01" "not-a-date" "1" 0 1000 ["08:00"]
     holdAtTenSt .InvalidDate (by decide)⟩

/-- A key is in a ledger exactly when some timestamped entry carries it. -/
theorem ledgerHas_iff_exists {l : Ledger} {s : String} :
    ledgerHas l s = true ↔ ∃ t, (s, t) ∈ l := by
  constructor
  · intro h
    rcases List.any_eq_true.mp h with ⟨⟨s', t⟩, hm, he⟩
    rcases beq_iff_eq.mp he
    exact ⟨t, hm⟩
  · rintro ⟨t, hm⟩
    exact List.any_eq_true.mpr ⟨(s, t), hm, beq_iff_eq.mpr rfl⟩

/-- Looking up the key just written returns the written timestamp. -/
theorem ledgerLookup_put_self (l : Ledger) (s : String) (t : Int) :
    ledgerLookup (ledgerPut l s t) s = some t := by
  induction l with
  | nil => simp [ledgerPut, ledgerLookup]
  | cons p rest ih =>
    by_cases h : p.1 = s
    · simp [ledgerPut, h, ledgerLookup]
    · simp [ledgerPut, h, ledgerLookup, ih]

/-- Writing one key leaves the lookup of every other key unchanged. -/
theorem ledgerLookup_put_other (l : Ledger) (s s' : String) (t : Int)
    (h : s' ≠ s) :
    ledgerLookup (ledgerPut l s t) s' = ledgerLookup l s' := by
  induction l with
  | nil => simp [ledgerPut, ledgerLookup, Ne.symm h]
  | cons p rest ih =>
    by_cases hp : p.1 = s
    · simp [ledgerPut, hp, ledgerLookup, Ne.symm h]
    · simp [ledgerPut, hp, ledgerLookup, ih]

/-- A fold of writes over keys not containing `s` preserves the lookup of
`s`. -/
theorem ledgerLookup_foldl_put_not_mem (ks : List String) (l : Ledger)
    (s : String) (t : Int) (h : s ∉ ks) :
    ledgerLookup (ks.foldl (fun acc k => ledgerPut acc k t) l) s =
      ledgerLookup l s := by
  induction ks generalizing l with
  | nil => rfl
  | cons a rest ih =>
    have h1 : s ≠ a := fun he => h (he ▸ List.mem_cons_self a rest)
    have h2 : s ∉ rest := fun hm => h (List.mem_cons_of_mem a hm)
    rw [List.foldl_cons, ih (ledgerPut l a t) h2, ledgerLookup_put_other _ _ _ _ h1]

/-- After folding writes of timestamp `t` over a key list, every key of the
list looks up to `t`. -/
theorem ledgerLookup_foldl_put_mem (ks : List String) (l : Ledger)
    (s : String) (t : Int) (h : s ∈ ks) :
    ledgerLookup (ks.foldl (fun acc k => ledgerPut acc k t) l) s = some t := by
  induction ks generalizing l with
  | nil => cases h
  | cons a rest ih =>
    by_cases hm : s ∈ rest
    · rw [List.foldl_cons]
      exact ih (ledgerPut l a t) hm
    · have hsa : s = a := by
        rcases List.mem_cons.mp h with h' | h'
        · exact h'
        · exact absurd h' hm
      rw [List.foldl_cons, ledgerLookup_foldl_put_not_mem rest _ s t hm, hsa,
        ledgerLookup_put_self]

/-- Reading the pair just set. -/
theorem storeSet_same (st : Store) (d c : String) (l : Ledger) :
    (storeSet st d c l) d c = l := by
  simp [storeSet]

/-- C2.  Conflict exclusivity without phantom conflicts: when, after the
sweep at the current time, some requested slot still has a live hold, `book`
rejects with `Conflict`, reports exactly the requested slots with a live
hold in request order, writes nothing (the store is exactly the swept prior
store), and every reported conflict is backed by a hold of the prior store
that is at most TTL old — an expired hold can never cause a `Conflict`. -/
theorem claim2_conflict_exclusivity
    (today date court : String) (now_local : Nat) (now_utc : Int)
    (slots : List String) (st : Store)
    (hd : valid_date date = true) (hc : court_ids.contains court = true)
    (hne : slots ≠ []) (hv : ∀ s ∈ slots, s ∈ SLOTS_30)
    (hts : too_soon_check today now_local date slots = false)
    (hcont : contiguous_run slots = true)
    (hconf : slots.filter (fun s =>
        ledgerHas ((cleanup_expired now_utc st) date court) s) ≠ []) :
    api_book today now_local now_utc date court slots st =
      (.error (.Conflict (slots.filter (fun s =>
          ledgerHas ((cleanup_expired now_utc st) date court) s))),
       cleanup_expired now_utc st) ∧
    ∀ s ∈ slots.filter (fun s =>
        ledgerHas ((cleanup_expired now_utc st) date court) s),
      ∃ t, (s, t) ∈ st date court ∧ now_utc ≤ t + HOLD_SECONDS := by
  constructor
  · have hcm : court ∈ court_ids := by simpa using hc
    have hvx : ¬ ∃ x ∈ slots, x ∉ SLOTS_30 := by
      rintro ⟨x, hx, hnx⟩
      exact hnx (hv x hx)
    simp [api_book, hd, hcm, hne, hvx, hts, hcont, hconf]
  · intro s hs
    have := (List.mem_filter.mp hs).2
    rcases ledgerHas_iff_exists.mp this with ⟨t, ht⟩
    exact ⟨t, mem_sweepLedger.mp ht⟩

/-- C5.  Success postcondition of `book`: on acceptance the call returns the
requested slots, the court, the date, the expiry `now + TTL` and the TTL in
seconds (600), and the resulting store carries a hold with timestamp `now`
for every requested slot. -/
theorem claim5_book_success
    (today date court : String) (now_local : Nat) (now_utc : Int)
    (slots : List String) (st : Store)
    (hd : valid_date date = true) (hc : court_ids.contains court = true)
    (hne : slots ≠ []) (hv : ∀ s ∈ slots, s ∈ SLOTS_30)
    (hts : too_soon_check today now_local date slots = false)
    (hcont : contiguous_run slots = true)
    (hconf : slots.filter (fun s =>
        ledgerHas ((cleanup_expired now_utc st) date court) s) = []) :
    ∃ st' : Store,
      api_book today now_local now_utc date court slots st =
        (.ok ⟨slots, court, date, now_utc + HOLD_SECONDS, HOLD_SECONDS⟩, st') ∧
      HOLD_SECONDS = 600 ∧
      ∀ s ∈ slots, ledgerLookup (st' date court) s = some now_utc := by
  refine ⟨storeSet (cleanup_expired now_utc st) date court
      (slots.foldl (fun l s => ledgerPut l s now_utc)
        ((cleanup_expired now_utc st) date court)), ?_, by decide, ?_⟩
  · have hcm : court ∈ court_ids := by simpa using hc
    have hvx : ¬ ∃ x ∈ slots, x ∉ SLOTS_30 := by
      rintro ⟨x, hx, hnx⟩
      exact hnx (hv x hx)
    simp [api_book, hd, hcm, hne, hvx, hts, hcont, hconf]
  · intro s hs
    rw [storeSet_same]
    exact ledgerLookup_foldl_put_mem slots _ s now_utc hs

/-- C9.  Shared booking timestamp: a successful `book` writes the same
creation timestamp to every requested slot, so all its holds expire at the
same instant, and that instant is exactly the `expires_at` of the response
(timestamp + TTL). -/
theorem claim9_shared_timestamp
    (today date court : String) (now_local : Nat) (now_utc : Int)
    (slots : List String) (st : Store)
    (hd : valid_date date = true) (hc : court_ids.contains court = true)
    (hne : slots ≠ []) (hv : ∀ s ∈ slots, s ∈ SLOTS_30)
    (hts : too_soon_check today now_local date slots = false)
    (hcont : contiguous_run slots = true)
    (hconf : slots.filter (fun s =>
        ledgerHas ((cleanup_expired now_utc st) date court) s) = []) :
    ∃ (res : BookSuccess) (st' : Store),
      api_book today now_local now_utc date court slots st = (.ok res, st') ∧
      ∃ t : Int, (∀ s ∈ slots, ledgerLookup (st' date court) s = some t) ∧
        res.expires_at = t + HOLD_SECONDS := by
  refine ⟨⟨slots, court, date, now_utc + HOLD_SECONDS, HOLD_SECONDS⟩,
    storeSet (cleanup_expired now_utc st) date court
      (slots.foldl (fun l s => ledgerPut l s now_utc)
        ((cleanup_expired now_utc st) date court)), ?_, now_utc, ?_, rfl⟩
  · have hcm : court ∈ court_ids := by simpa using hc
    have hvx : ¬ ∃ x ∈ slots, x ∉ SLOTS_30 := by
      rintro ⟨x, hx, hnx⟩
      exact hnx (hv x hx)
    simp [api_book, hd, hcm, hne, hvx, hts, hcont, hconf]
  · intro s hs
    rw [storeSet_same]
    exact ledgerLookup_foldl_put_mem slots _ s now_utc hs

/-- If `book` rejects with `TooSoon` then the same-day cutoff gate fired. -/
theorem tooSoon_of_api_book
    {today date court : String} {now_local : Nat} {now_utc : Int}
    {slots : List String} {st : Store}
    (h : (api_book today now_local now_utc date court slots st).1 =
      .error .TooSoon) :
    too_soon_check today now_local date slots = true := by
  unfold api_book at h
  split at h
  · simp at h
  split at h
  · simp at h
  split at h
  · simp at h
  split at h
  · simp at h
  split at h
  · assumption
  dsimp only at h
  split at h
  · simp at h
  split at h
  · simp at h
  · simp at h

/-- C4.  Cutoff consistency: for a request dated today, evaluated at local
time `now`, `book` rejects with `TooSoon` exactly when some requested slot
is in the availability query's `blocked` list — both sides apply the same
rule, start time ≤ now + 30 minutes. -/
theorem claim4_cutoff_consistency
    (today court : String) (now_local : Nat) (now_utc : Int)
    (slots : List String) (st : Store)
    (hd : valid_date today = true) (hc : court_ids.contains court = true)
    (hne : slots ≠ []) (hv : ∀ s ∈ slots, s ∈ SLOTS_30) :
    ((api_book today now_local now_utc today court slots st).1 =
        .error .TooSoon ↔
      ∃ s ∈ slots, s ∈ slots_blocked_today now_local 30) := by
  have hblock : ∀ s ∈ slots,
      (s ∈ slots_blocked_today now_local 30 ↔
        60 * slot_minutes s ≤ now_local + 1800) := by
    intro s hs
    simp [slots_blocked_today, List.mem_filter, hv s hs]
  have hts_any : too_soon_check today now_local today slots =
      slots.any (fun s => decide (60 * slot_minutes s ≤ now_local + 1800)) := by
    simp [too_soon_check]
  cases hts : too_soon_check today now_local today slots with
  | true =>
    have hlhs : (api_book today now_local now_utc today court slots st).1 =
        .error .TooSoon := by
      have hcm : court ∈ court_ids := by simpa using hc
      have hvx : ¬ ∃ x ∈ slots, x ∉ SLOTS_30 := by
        rintro ⟨x, hx, hnx⟩
        exact hnx (hv x hx)
      simp [api_book, hd, hcm, hne, hvx, hts]
    rw [hlhs]
    simp only [true_iff]
    rw [hts_any] at hts
    rcases List.any_eq_true.mp hts with ⟨s, hs, hp⟩
    exact ⟨s, hs, (hblock s hs).mpr (of_decide_eq_true hp)⟩
  | false =>
    constructor
    · intro hlhs
      rw [tooSoon_of_api_book hlhs] at hts
      exact Bool.noConfusion hts
    · rintro ⟨s, hs, hb⟩
      rw [hts_any] at hts
      have : (decide (60 * slot_minutes s ≤ now_local + 1800)) = true :=
        decide_eq_true ((hblock s hs).mp hb)
      have hfalse := List.any_eq_false.mp hts s hs
      rw [this] at hfalse
      exact absurd rfl hfalse

/-- Witness for C2: on a store where the sweep leaves `"09:30"` live and
drops the expired `"10:00"`, booking 09:00–10:30 reports exactly the
conflict `"09:30"` and writes nothing. -/
theorem claim2_witness :
    (["09:00", "09:30", "10:00"].filter (fun s =>
        ledgerHas ((cleanup_expired 1200 conflictSt) "2099-01-02" "1") s) ≠ []) ∧
    (api_book "2099-01-01" 0 1200 "2099-01-02" "1"
        ["09:00", "09:30", "10:00"] conflictSt =
      (.error (.Conflict (["09:00", "09:30", "10:00"].filter (fun s =>
          ledgerHas ((cleanup_expired 1200 conflictSt) "2099-01-02" "1") s))),
       cleanup_expired 1200 conflictSt) ∧
      ∀ s ∈ ["09:00", "09:30", "10:00"].filter (fun s =>
          ledgerHas ((cleanup_expired 1200 conflictSt) "2099-01-02" "1") s),
        ∃ t, (s, t) ∈ conflictSt "2099-01-02" "1" ∧ 1200 ≤ t + HOLD_SECONDS) :=
  ⟨by decide,
   claim2_conflict_exclusivity "2099-01-01" "2099-01-02" "1" 0 1200
     ["09:00", "09:30", "10:00"] conflictSt (by decide) (by decide) (by decide)
     (by decide) (by decide) (by decide) (by decide)⟩

/-- Witness for C4: at 09:35:00 local time on a day dated today, booking
`["10:00"]` raises `TooSoon` and `"10:00"` is blocked; both follow from the
consistency theorem instantiated at this input. -/
theorem claim4_witness :
    valid_date "2099-01-02" = true ∧
    ((api_book "2099-01-02" 34500 0 "2099-01-02" "1" ["10:00"] emptySt).1 =
        .error .TooSoon ↔
      ∃ s ∈ ["10:00"], s ∈ slots_blocked_today 34500 30) :=
  ⟨by decide,
   claim4_cutoff_consistency "2099-01-02" "1" 34500 0 ["10:00"] emptySt
     (by decide) (by decide) (by decide) (by decide)⟩

/-- Witness for C5: booking 11:00–12:00 on an empty store succeeds, returns
the accepted slots with expiry `now + 600` and TTL 600, and stores both
holds with timestamp `now`. -/
theorem claim5_witness :
    (["11:00", "11:30"].filter (fun s =>
        ledgerHas ((cleanup_expired 1000 emptySt) "2099-01-02" "1") s) = []) ∧
    ∃ stf : Store,
      api_book "2099-01-01" 0 1000 "2099-01-02" "1" ["11:00", "11:30"] emptySt =
        (.ok ⟨["11:00", "11:30"], "1", "2099-01-02",
          1000 + HOLD_SECONDS, HOLD_SECONDS⟩, stf) ∧
      HOLD_SECONDS = 600 ∧
      ∀ s ∈ ["11:00", "11:30"], ledgerLookup (stf "2099-01-02" "1") s = some 1000 :=
  ⟨by decide,
   claim5_book_success "2099-01-01" "2099-01-02" "1" 0 1000
     ["11:00", "11:30"] emptySt (by decide) (by decide) (by decide) (by decide)
     (by decide) (by decide) (by decide)⟩

/-- Witness for C9: the same booking on court 2 shares one creation
timestamp across its two holds, equal to the reported expiry minus the TTL. -/
theorem claim9_witness :
    (["12:00", "12:30"].filter (fun s =>
        ledgerHas ((cleanup_expired 2000 emptySt) "2099-01-03" "2") s) = []) ∧
    ∃ (res : BookSuccess) (stf : Store),
      api_book "2099-01-01" 0 2000 "2099-01-03" "2" ["12:00", "12:30"] emptySt =
        (.ok res, stf) ∧
      ∃ t : Int, (∀ s ∈ ["12:00", "12:30"],
          ledgerLookup (stf "2099-01-03" "2") s = some t) ∧
        res.expires_at = t + HOLD_SECONDS :=
  ⟨by decide,
   claim9_shared_timestamp "2099-01-01" "2099-01-03" "2" 0 2000
     ["12:00", "12:30"] emptySt (by decide) (by decide) (by decide) (by decide)
     (by decide) (by decide) (by decide)⟩

/-- A key is in a ledger exactly when it is among the ledger's keys. -/
theorem ledgerHas_iff_mem_keys {l : Ledger} {s : String} :
    ledgerHas l s = true ↔ s ∈ ledgerKeys l := by
  rw [ledgerHas_iff_exists]
  constructor
  · rintro ⟨t, ht⟩
    exact List.mem_map.mpr ⟨(s, t), ht, rfl⟩
  · intro h
    rcases List.mem_map.mp h with ⟨⟨s', t⟩, hm, he⟩
    cases he
    exact ⟨t, hm⟩

/-- Unfolding of key membership over a cons cell. -/
theorem ledgerHas_cons (p : String × Int) (rest : Ledger) (s : String) :
    ledgerHas (p :: rest) s = ((p.1 == s) || ledgerHas rest s) := rfl

/-- Erasing a key present at the head. -/
theorem ledgerErase_cons_self {p : String × Int} {rest : Ledger} {a : String}
    (hp : p.1 = a) : ledgerErase (p :: rest) a = rest := by
  simp [ledgerErase, hp]

/-- Erasing a key absent from the head. -/
theorem ledgerErase_cons_other {p : String × Int} {rest : Ledger} {a : String}
    (hp : p.1 ≠ a) : ledgerErase (p :: rest) a = p :: ledgerErase rest a := by
  simp [ledgerErase, hp]

/-- Erasing a ledger key yields a sublist of the ledger. -/
theorem ledgerErase_sublist (l : Ledger) (a : String) :
    List.Sublist (ledgerErase l a) l := by
  induction l with
  | nil => exact List.Sublist.refl []
  | cons p rest ih =>
    by_cases hp : p.1 = a
    · rw [ledgerErase_cons_self hp]
      exact List.sublist_cons_self p rest
    · rw [ledgerErase_cons_other hp]
      exact List.Sublist.cons₂ p ih

/-- Key membership is monotone along sublists. -/
theorem ledgerHas_of_sublist {l l' : Ledger} {s : String}
    (h : List.Sublist l' l) (hh : ledgerHas l' s = true) :
    ledgerHas l s = true := by
  rcases ledgerHas_iff_exists.mp hh with ⟨t, ht⟩
  exact ledgerHas_iff_exists.mpr ⟨t, h.mem ht⟩

/-- Erasing one key does not change the presence of any other key. -/
theorem ledgerHas_erase_other {l : Ledger} {a s : String} (h : s ≠ a) :
    ledgerHas (ledgerErase l a) s = ledgerHas l s := by
  induction l with
  | nil => rfl
  | cons p rest ih =>
    by_cases hp : p.1 = a
    · have hps : (p.1 == s) = false :=
        beq_eq_false_iff_ne.mpr (hp ▸ Ne.symm h)
      rw [ledgerErase_cons_self hp, ledgerHas_cons, hps, Bool.false_or]
    · rw [ledgerErase_cons_other hp, ledgerHas_cons, ledgerHas_cons, ih]

/-- With unique keys, erasing a key removes it from the ledger. -/
theorem ledgerHas_erase_self {l : Ledger} (hnd : (ledgerKeys l).Nodup)
    (a : String) : ledgerHas (ledgerErase l a) a = false := by
  induction l with
  | nil => rfl
  | cons p rest ih =>
    have hnd' := List.nodup_cons.mp hnd
    by_cases hp : p.1 = a
    · rw [ledgerErase_cons_self hp]
      cases hb : ledgerHas rest a with
      | false => rfl
      | true => exact absurd (ledgerHas_iff_mem_keys.mp hb) (hp ▸ hnd'.1)
    · rw [ledgerErase_cons_other hp, ledgerHas_cons,
        beq_eq_false_iff_ne.mpr hp, ih hnd'.2, Bool.false_or]

/-- Erasure preserves uniqueness of keys. -/
theorem keysNodup_erase {l : Ledger} (hnd : (ledgerKeys l).Nodup)
    (a : String) : (ledgerKeys (ledgerErase l a)).Nodup :=
  hnd.sublist ((ledgerErase_sublist l a).map Prod.fst)

/-- The sweep preserves uniqueness of keys. -/
theorem keysNodup_sweep {l : Ledger} (hnd : (ledgerKeys l).Nodup)
    (now : Int) : (ledgerKeys (sweepLedger now l)).Nodup :=
  hnd.sublist ((List.filter_sublist l).map Prod.fst)

/-- The ledger component of the release loop ignores the accumulator and is
the fold of conditional erasures. -/
theorem release_fold_fst (slots : List String) (l : Ledger)
    (acc : List String) :
    (slots.foldl
        (fun (p : Ledger × List String) s =>
          if ledgerHas p.1 s then (ledgerErase p.1 s, p.2 ++ [s]) else p)
        (l, acc)).1 =
      slots.foldl (fun l s => if ledgerHas l s then ledgerErase l s else l) l := by
  induction slots generalizing l acc with
  | nil => rfl
  | cons a rest ih =>
    rw [List.foldl_cons, List.foldl_cons]
    by_cases ha : ledgerHas l a = true
    · rw [if_pos ha, if_pos ha]
      exact ih _ _
    · rw [if_neg ha, if_neg ha]
      exact ih _ _

/-- The release loop never reintroduces a key. -/
theorem release_erases_mono (slots : List String) (l : Ledger) (s : String)
    (h : ledgerHas
        (slots.foldl (fun l s => if ledgerHas l s then ledgerErase l s else l) l)
        s = true) :
    ledgerHas l s = true := by
  induction slots generalizing l with
  | nil => exact h
  | cons a rest ih =>
    rw [List.foldl_cons] at h
    by_cases ha : ledgerHas l a = true
    · rw [if_pos ha] at h
      exact ledgerHas_of_sublist (ledgerErase_sublist l a) (ih _ h)
    · rw [if_neg ha] at h
      exact ih _ h

/-- After the release loop, every requested slot's hold is gone (given the
dict invariant that keys are unique). -/
theorem release_fold_gone (slots : List String) (l : Ledger)
    (hnd : (ledgerKeys l).Nodup) (s : String) (hs : s ∈ slots) :
    ledgerHas
        (slots.foldl (fun l s => if ledgerHas l s then ledgerErase l s else l) l)
        s = false := by
  induction slots generalizing l with
  | nil => cases hs
  | cons a rest ih =>
    rw [List.foldl_cons]
    have hnd2 : (ledgerKeys (if ledgerHas l a then ledgerErase l a else l)).Nodup := by
      by_cases ha : ledgerHas l a = true
      · rw [if_pos ha]; exact keysNodup_erase hnd a
      · rw [if_neg ha]; exact hnd
    by_cases hm : s ∈ rest
    · exact ih _ hnd2 hm
    · have hsa : s = a := by
        rcases List.mem_cons.mp hs with h' | h'
        · exact h'
        · exact absurd h' hm
      subst hsa
      have hbase : ledgerHas (if ledgerHas l s then ledgerErase l s else l) s
          = false := by
        by_cases ha : ledgerHas l s = true
        · rw [if_pos ha]; exact ledgerHas_erase_self hnd s
        · rw [if_neg ha]; exact Bool.eq_false_iff.mpr ha
      cases hb : ledgerHas
          (rest.foldl (fun l s => if ledgerHas l s then ledgerErase l s else l)
            (if ledgerHas l s then ledgerErase l s else l)) s with
      | false => rfl
      | true =>
        rw [release_erases_mono rest _ s hb] at hbase
        exact hbase

/-- What the release loop reports: a slot is in the released list exactly
when it was in the starting accumulator, or was requested and present in
the starting ledger. -/
theorem release_fold_mem (slots : List String) (l : Ledger)
    (acc : List String) (s : String) :
    (s ∈ (slots.foldl
        (fun (p : Ledger × List String) s =>
          if ledgerHas p.1 s then (ledgerErase p.1 s, p.2 ++ [s]) else p)
        (l, acc)).2 ↔
      s ∈ acc ∨ (s ∈ slots ∧ ledgerHas l s = true)) := by
  induction slots generalizing l acc with
  | nil => simp
  | cons a rest ih =>
    rw [List.foldl_cons]
    by_cases ha : ledgerHas l a = true
    · rw [if_pos ha, ih]
      by_cases hsa : s = a
      · subst hsa
        simp [ha]
      · simp only [List.mem_append, List.mem_singleton,
          ledgerHas_erase_other hsa, List.mem_cons]
        constructor
        · rintro ((h | h) | h)
          · exact Or.inl h
          · rcases h with h | h
            · exact absurd h hsa
            · cases h
          · exact Or.inr ⟨Or.inr h.1, h.2⟩
        · rintro (h | ⟨h | h, hh⟩)
          · exact Or.inl (Or.inl h)
          · exact absurd h hsa
          · exact Or.inr ⟨h, hh⟩
    · rw [if_neg ha, ih]
      have ha' : ledgerHas l a = false := Bool.eq_false_iff.mpr ha
      by_cases hsa : s = a
      · subst hsa
        simp [ha']
      · simp only [List.mem_cons]
        constructor
        · rintro (h | h)
          · exact Or.inl h
          · exact Or.inr ⟨Or.inr h.1, h.2⟩
        · rintro (h | ⟨h | h, hh⟩)
          · exact Or.inl h
          · exact absurd h hsa
          · exact Or.inr ⟨h, hh⟩

/-- C6.  Release is idempotent and returns exactly what it removed: for a
valid request, release succeeds, the released list contains exactly the
requested slots that had a live (post-sweep) hold, every requested slot's
hold is gone afterwards (under the dict invariant of unique keys), and when
no requested slot had a live hold the call still succeeds with an empty
released list. -/
theorem claim6_release_idempotent
    (date court : String) (slots : List String) (now_utc : Int) (st : Store)
    (hd : valid_date date = true) (hc : court_ids.contains court = true)
    (hne : slots ≠ []) (hv : ∀ s ∈ slots, s ∈ SLOTS_30) :
    ∃ (rel : List String) (st' : Store),
      api_release date court slots now_utc st = (.ok rel, st') ∧
      (∀ s, s ∈ rel ↔ s ∈ slots ∧
        ledgerHas ((cleanup_expired now_utc st) date court) s = true) ∧
      ((ledgerKeys (st date court)).Nodup →
        ∀ s ∈ slots, ledgerHas (st' date court) s = false) ∧
      ((∀ s ∈ slots,
          ledgerHas ((cleanup_expired now_utc st) date court) s = false) →
        rel = []) := by
  refine ⟨(slots.foldl (fun (p : Ledger × List String) s =>
      if ledgerHas p.1 s then (ledgerErase p.1 s, p.2 ++ [s]) else p)
      ((cleanup_expired now_utc st) date court, [])).2,
    storeSet (cleanup_expired now_utc st) date court
      (slots.foldl (fun (p : Ledger × List String) s =>
        if ledgerHas p.1 s then (ledgerErase p.1 s, p.2 ++ [s]) else p)
        ((cleanup_expired now_utc st) date court, [])).1, ?_, ?_, ?_, ?_⟩
  · have hcm : court ∈ court_ids := by simpa using hc
    have hvx : ¬ ∃ x ∈ slots, x ∉ SLOTS_30 := by
      rintro ⟨x, hx, hnx⟩
      exact hnx (hv x hx)
    simp [api_release, hd, hcm, hne, hvx]
  · intro s
    rw [release_fold_mem]
    simp
  · intro hnd s hs
    rw [storeSet_same, release_fold_fst]
    exact release_fold_gone slots _ (keysNodup_sweep hnd now_utc) s hs
  · intro hdead
    apply List.eq_nil_iff_forall_not_mem.mpr
    intro s hsmem
    rw [release_fold_mem] at hsmem
    rcases hsmem with h | ⟨h1, h2⟩
    · cases h
    · rw [hdead s h1] at h2
      exact Bool.noConfusion h2

/-- Witness for C6: releasing 09:00–10:30 on a store whose sweep leaves only
`"09:30"` live succeeds, releasing exactly `"09:30"`; the requested slots
without live holds are not an error. -/
theorem claim6_witness :
    valid_date "2099-01-02" = true ∧
    ∃ (rel : List String) (stf : Store),
      api_release "2099-01-02" "1" ["09:00", "09:30", "10:00"] 1200 conflictSt =
        (.ok rel, stf) ∧
      (∀ s, s ∈ rel ↔ s ∈ ["09:00", "09:30", "10:00"] ∧
        ledgerHas ((cleanup_expired 1200 conflictSt) "2099-01-02" "1") s = true) ∧
      ((ledgerKeys (conflictSt "2099-01-02" "1")).Nodup →
        ∀ s ∈ ["09:00", "09:30", "10:00"],
          ledgerHas (stf "2099-01-02" "1") s = false) ∧
      ((∀ s ∈ ["09:00", "09:30", "10:00"],
          ledgerHas ((cleanup_expired 1200 conflictSt) "2099-01-02" "1") s = false) →
        rel = []) :=
  ⟨by decide,
   claim6_release_idempotent "2099-01-02" "1" ["09:00", "09:30", "10:00"]
     1200 conflictSt (by decide) (by decide) (by decide) (by decide)⟩

/-- Folding `min` can only shrink the accumulator. -/
theorem foldl_min_le_init (xs : List Nat) (a : Nat) :
    xs.foldl Nat.min a ≤ a := by
  induction xs generalizing a with
  | nil => exact le_refl a
  | cons x rest ih =>
    rw [List.foldl_cons]
    exact le_trans (ih (Nat.min a x)) (Nat.min_le_left a x)

/-- Folding `min` bounds every visited element from below. -/
theorem foldl_min_le_mem {xs : List Nat} {x : Nat} (h : x ∈ xs) (a : Nat) :
    xs.foldl Nat.min a ≤ x := by
  induction xs generalizing a with
  | nil => cases h
  | cons y rest ih =>
    rw [List.foldl_cons]
    rcases List.mem_cons.mp h with h' | h'
    · subst h'
      exact le_trans (foldl_min_le_init rest _) (Nat.min_le_right a x)
    · exact ih h' _

/-- Python `min` bounds every member of the list. -/
theorem list_min_le {l : List Nat} {x : Nat} (h : x ∈ l) : list_min l ≤ x := by
  cases l with
  | nil => cases h
  | cons y ys =>
    rcases List.mem_cons.mp h with h' | h'
    · subst h'
      exact foldl_min_le_init ys x
    · exact foldl_min_le_mem h' y

/-- Folding `max` can only grow the accumulator. -/
theorem le_foldl_max_init (xs : List Nat) (a : Nat) :
    a ≤ xs.foldl Nat.max a := by
  induction xs generalizing a with
  | nil => exact le_refl a
  | cons x rest ih =>
    rw [List.foldl_cons]
    exact le_trans (Nat.le_max_left a x) (ih (Nat.max a x))

/-- Folding `max` bounds every visited element from above. -/
theorem le_foldl_max_mem {xs : List Nat} {x : Nat} (h : x ∈ xs) (a : Nat) :
    x ≤ xs.foldl Nat.max a := by
  induction xs generalizing a with
  | nil => cases h
  | cons y rest ih =>
    rw [List.foldl_cons]
    rcases List.mem_cons.mp h with h' | h'
    · subst h'
      exact le_trans (Nat.le_max_right a x) (le_foldl_max_init rest _)
    · exact ih h' _

/-- Python `max` bounds every member of the list. -/
theorem le_list_max {l : List Nat} {x : Nat} (h : x ∈ l) : x ≤ list_max l := by
  cases l with
  | nil => cases h
  | cons y ys =>
    rcases List.mem_cons.mp h with h' | h'
    · subst h'
      exact le_foldl_max_init ys x
    · exact le_foldl_max_mem h' y

/-- A nonempty sorted duplicate-free list of naturals is the unbroken run
`range' min (max+1-min)` exactly when `max + 1 - min` equals its length. -/
theorem sorted_nodup_eq_range_iff (l : List Nat) (hne : l ≠ [])
    (hs : List.Sorted (· ≤ ·) l) (hn : l.Nodup) :
    (l = List.range' (list_min l) (list_max l + 1 - list_min l) ↔
      list_max l + 1 - list_min l = l.length) := by
  constructor
  · intro he
    have hlen := congrArg List.length he
    rw [List.length_range'] at hlen
    exact hlen.symm
  · intro hlen
    obtain ⟨x, hx⟩ : ∃ x, x ∈ l := by
      cases l with
      | nil => exact absurd rfl hne
      | cons y ys => exact ⟨y, List.mem_cons_self y ys⟩
    have hab : list_min l ≤ list_max l :=
      le_trans (list_min_le hx) (le_list_max hx)
    have hsub : l.toFinset ⊆ Finset.Icc (list_min l) (list_max l) := by
      intro y hy
      rw [List.mem_toFinset] at hy
      rw [Finset.mem_Icc]
      exact ⟨list_min_le hy, le_list_max hy⟩
    have hcard : (Finset.Icc (list_min l) (list_max l)).card ≤
        l.toFinset.card := by
      rw [Nat.card_Icc, List.toFinset_card_of_nodup hn, hlen]
    have hfe : l.toFinset = Finset.Icc (list_min l) (list_max l) :=
      Finset.eq_of_subset_of_card_le hsub hcard
    have hrfe : (List.range' (list_min l)
        (list_max l + 1 - list_min l)).toFinset =
        Finset.Icc (list_min l) (list_max l) := by
      ext y
      rw [List.mem_toFinset, List.mem_range'_1, Finset.mem_Icc]
      omega
    have hperm := List.perm_of_nodup_nodup_toFinset_eq hn
      (List.nodup_range' _ _) (hfe.trans hrfe.symm)
    have hsr : List.Sorted (· ≤ ·)
        (List.range' (list_min l) (list_max l + 1 - list_min l)) :=
      (List.pairwise_lt_range' _ _).imp (fun h => le_of_lt h)
    exact List.eq_of_perm_of_sorted hperm hs hsr

/-- The source's contiguity test, on a duplicate-free request of valid
slots, is exactly the criterion `max − min + 1 = count` on the sorted
calendar indices. -/
theorem contiguous_run_iff {slots : List String} (hne : slots ≠ [])
    (hv : ∀ s ∈ slots, s ∈ SLOTS_30) (hnd : slots.Nodup) :
    (contiguous_run slots = true ↔
      list_max (book_idxs slots) + 1 - list_min (book_idxs slots) =
        slots.length) := by
  have hperm : (book_idxs slots).Perm
      (slots.map (fun s => List.indexOf s SLOTS_30)) :=
    List.perm_insertionSort (· ≤ ·) _
  have hmapnd : (slots.map (fun s => List.indexOf s SLOTS_30)).Nodup := by
    refine List.Nodup.map_on ?_ hnd
    intro x hx y hy hxy
    exact (List.indexOf_inj (hv x hx) (hv y hy)).mp hxy
  have hidnd : (book_idxs slots).Nodup := hperm.nodup_iff.mpr hmapnd
  have hsorted : List.Sorted (· ≤ ·) (book_idxs slots) :=
    List.sorted_insertionSort (· ≤ ·) _
  have hlen : (book_idxs slots).length = slots.length := by
    rw [hperm.length_eq, List.length_map]
  have hne' : book_idxs slots ≠ [] := by
    intro h0
    apply hne
    have hl := hperm.length_eq
    rw [h0] at hl
    simp only [List.length_nil, List.length_map] at hl
    exact List.length_eq_zero.mp hl.symm
  simp only [contiguous_run]
  rw [beq_iff_eq, sorted_nodup_eq_range_iff _ hne' hsorted hidnd, hlen]

/-- If `book` rejects with `NonContiguous` then the contiguity test failed. -/
theorem nonContiguous_of_api_book
    {today date court : String} {now_local : Nat} {now_utc : Int}
    {slots : List String} {st : Store}
    (h : (api_book today now_local now_utc date court slots st).1 =
      .error .NonContiguous) :
    contiguous_run slots = false := by
  unfold api_book at h
  split at h
  · simp at h
  split at h
  · simp at h
  split at h
  · simp at h
  split at h
  · simp at h
  split at h
  · simp at h
  dsimp only at h
  split at h
  · rename_i hcond
    simpa using hcond
  split at h
  · simp at h
  · simp at h

/-- C3 (amended).  For a duplicate-free request of valid slots, `book`
rejects with `NonContiguous` exactly when the sorted calendar indices fail
`max − min + 1 = count`; a request containing a duplicate slot is always
rejected as `NonContiguous` even when that formula holds (see the
counterexample), because the code compares the sorted index list with the
full run `range(min, max+1)`. -/
theorem claim3_contiguity
    (today date court : String) (now_local : Nat) (now_utc : Int)
    (slots : List String) (st : Store)
    (hd : valid_date date = true) (hc : court_ids.contains court = true)
    (hne : slots ≠ []) (hv : ∀ s ∈ slots, s ∈ SLOTS_30)
    (hts : too_soon_check today now_local date slots = false)
    (hnd : slots.Nodup) :
    ((api_book today now_local now_utc date court slots st).1 =
        .error .NonContiguous ↔
      list_max (book_idxs slots) + 1 - list_min (book_idxs slots) ≠
        slots.length) := by
  have hiff := contiguous_run_iff hne hv hnd
  cases hcr : contiguous_run slots with
  | false =>
    have hcm : court ∈ court_ids := by simpa using hc
    have hvx : ¬ ∃ x ∈ slots, x ∉ SLOTS_30 := by
      rintro ⟨x, hx, hnx⟩
      exact hnx (hv x hx)
    have hlhs : (api_book today now_local now_utc date court slots st).1 =
        .error .NonContiguous := by
      simp [api_book, hd, hcm, hne, hvx, hts, hcr]
    rw [hlhs]
    simp only [true_iff]
    intro hEq
    have hcr' := hiff.mpr hEq
    rw [hcr'] at hcr
    exact Bool.noConfusion hcr
  | true =>
    constructor
    · intro hlhs
      have := nonContiguous_of_api_book hlhs
      rw [this] at hcr
      exact Bool.noConfusion hcr
    · intro hr
      exact absurd (hiff.mp hcr) hr

/-- C3, counterexample to the claim as stated: the duplicate request
`["08:00", "08:00", "09:00"]` has sorted calendar indices `[0, 0, 2]` with
`max − min + 1 = 3 = count`, so by the claim's criterion it should pass the
contiguity check, yet the code rejects it with `NonContiguous` (its sorted
index list is not `range(0, 3)`). -/
theorem claim3_counterexample :
    list_max (book_idxs ["08:00", "08:00", "09:00"]) + 1 -
        list_min (book_idxs ["08:00", "08:00", "09:00"]) =
      (["08:00", "08:00", "09:00"] : List String).length ∧
    (api_book "2099-01-01" 0 0 "2099-01-02" "1" ["08:00", "08:00", "09:00"]
        emptySt).1 = .error .NonContiguous := by
  refine ⟨by decide, by decide⟩

/-- Witness for C3: `["08:00", "08:30", "09:30"]` (indices 0, 1, 3 —
criterion 4 ≠ 3) is rejected as `NonContiguous`, while the unbroken
`["08:00", "08:30", "09:00"]` is not. -/
theorem claim3_witness :
    (["08:00", "08:30", "09:30"] : List String).Nodup ∧
    (api_book "2099-01-01" 0 0 "2099-01-02" "1" ["08:00", "08:30", "09:30"]
        emptySt).1 = .error .NonContiguous ∧
    ¬ (api_book "2099-01-01" 0 0 "2099-01-02" "1" ["08:00", "08:30", "09:00"]
        emptySt).1 = .error .NonContiguous :=
  ⟨by decide,
   (claim3_contiguity "2099-01-01" "2099-01-02" "1" 0 0
       ["08:00", "08:30", "09:30"] emptySt (by decide) (by decide) (by decide)
       (by decide) (by decide) (by decide)).mpr (by decide),
   fun h =>
     absurd ((claim3_contiguity "2099-01-01" "2099-01-02" "1" 0 0
       ["08:00", "08:30", "09:00"] emptySt (by decide) (by decide) (by decide)
       (by decide) (by decide) (by decide)).mp h) (by decide)⟩
